import Mathlib

/-!
Verification of core components of the golubsmtpd SMTP server.

Each section shallowly embeds one component of the Go source:

* `Storage`  — `internal/storage/storage.go` (`streamSMTPData`, `StreamEmailContent`):
  the streaming DATA ingestor.  The network reader is modelled as the list of
  chunks successive `Read` calls return; bytes are `Nat` (0..255); the spool
  file is the list of bytes written to it.
* `QueuePub` — `internal/queue/queue.go` (`Queue.PublishMessage`): modelled as a
  sequential loop observing, at each scheduling point, whether the publisher
  context is cancelled and whether the buffered channel has free space.
* `Proc`     — `internal/queue/queue.go` (`Queue.processMessage`) together with
  `internal/delivery` (`DeliverWithWorkers`): the per-recipient worker pool is
  modelled sequentially (one boolean outcome per recipient).
* `Smtp`     — `internal/smtp/session.go` (`handleRcpt`, session state) and
  `internal/smtp/strategies_tcp.go` (`TCPDataHandler.HandleData`).
* `Cache`    — `internal/smtp/cache.go` (`LRUCache`): the Go map plus intrusive
  LRU list is modelled as a single list of entries ordered most-recent-first.
-/

namespace Storage

/-- Byte value of carriage return. -/
def CR : Nat := 13

/-- Byte value of line feed. -/
def LF : Nat := 10

/-- Byte value of the ASCII dot. -/
def DOT : Nat := 46

/-- The SMTP DATA terminator `\r\n.\r\n`, as in
`terminator := []byte("\r\n.\r\n")` in `streamSMTPData`. -/
def terminator : List Nat := [CR, LF, DOT, CR, LF]

/-- Whether `needle` is an initial segment of `hay` (byte-wise). -/
def beginsWith : List Nat → List Nat → Bool
  | [], _ => true
  | _ :: _, [] => false
  | a :: as, b :: bs => a == b && beginsWith as bs

/-- Index of the first occurrence of `needle` inside `hay`, mirroring Go
`bytes.Index` (which returns -1, here `none`, when absent). -/
def bytesIndex (needle : List Nat) : List Nat → Option Nat
  | [] => if beginsWith needle [] then some 0 else none
  | b :: rest =>
    if beginsWith needle (b :: rest) then some 0
    else (bytesIndex needle rest).map (fun j => j + 1)

/-- Loop state of `streamSMTPData`: bytes already written to the temp file,
the `totalWritten` counter, and the rolling `tail` window. -/
structure StreamState where
  file : List Nat
  written : Nat
  tail : List Nat
deriving DecidableEq

/-- Outcome of one iteration of the read loop of `streamSMTPData` for one
non-empty chunk returned by `reader.Read`. -/
inductive ChunkOut where
  | done (file : List Nat) (written : Nat)
  | cont (st : StreamState)
  | sizeErr (st : StreamState)
deriving DecidableEq

/-- One iteration of the read loop of `streamSMTPData` (storage.go lines
128-173): build `searchBuf := tail ++ chunk`; if the terminator occurs, write
the data before it plus a trailing CRLF (subject to the size check) and stop;
otherwise flush all but the last `len(terminator)` bytes (subject to the size
check) and keep the rest as the new tail.  A read returning zero bytes does
nothing. -/
def processChunk (maxSize : Nat) (st : StreamState) (c : List Nat) : ChunkOut :=
  if c.length = 0 then ChunkOut.cont st
  else
    let searchBuf := st.tail ++ c
    match bytesIndex terminator searchBuf with
    | some idx =>
      let messageData := searchBuf.take idx
      if 0 < maxSize ∧ maxSize < st.written + messageData.length + 2 then
        ChunkOut.sizeErr st
      else
        ChunkOut.done (st.file ++ messageData ++ [CR, LF])
          (st.written + messageData.length + 2)
    | none =>
      if terminator.length < searchBuf.length then
        let flushUpto := searchBuf.length - terminator.length
        let lineData := searchBuf.take flushUpto
        if 0 < maxSize ∧ maxSize < st.written + lineData.length then
          ChunkOut.sizeErr st
        else
          ChunkOut.cont
            { file := st.file ++ lineData
              written := st.written + lineData.length
              tail := searchBuf.drop flushUpto }
      else
        ChunkOut.cont { st with tail := searchBuf }

/-- Result of `streamSMTPData`: the Go function returns `(totalWritten, err)`;
the model also carries the bytes present in the temp file when it returns. -/
inductive StreamResult where
  | ok (file : List Nat) (written : Nat)
  | sizeErr (file : List Nat) (written : Nat) (limit : Nat)
deriving DecidableEq

/-- The read loop of `streamSMTPData` over the remaining chunks; reaching the
end of the chunk list is `io.EOF`, on which the function breaks out of the
loop and returns `totalWritten` with no error (storage.go lines 174-183). -/
def streamSMTPData (maxSize : Nat) : StreamState → List (List Nat) → StreamResult
  | st, [] => StreamResult.ok st.file st.written
  | st, c :: cs =>
    match processChunk maxSize st c with
    | ChunkOut.done f w => StreamResult.ok f w
    | ChunkOut.sizeErr st2 => StreamResult.sizeErr st2.file st2.written maxSize
    | ChunkOut.cont st2 => streamSMTPData maxSize st2 cs

/-- Errors surfaced by `StreamEmailContent`. -/
inductive IngestErr where
  | sizeLimit (limit : Nat)
  | emptyMessage
deriving DecidableEq

/-- Observable outcome of `StreamEmailContent`: the content of
`incoming/<final>` if it was persisted, any leftover `incoming/<final>.tmp`,
the returned byte count, and the returned error. -/
structure IngestOutcome where
  finalFile : Option (List Nat)
  tempFile : Option (List Nat)
  returned : Nat
  err : Option IngestErr
deriving DecidableEq

/-- `StreamEmailContent` (storage.go lines 40-106): stream the body to the
temp file; on a streaming error the deferred cleanup unlinks the temp file (no
final file was created), on `totalSize == 0` it fails with an empty-message
error and the cleanup likewise unlinks the temp file, and otherwise it fsyncs
and atomically renames the temp file to the final file. -/
def StreamEmailContent (maxSize : Nat) (chunks : List (List Nat)) : IngestOutcome :=
  match streamSMTPData maxSize { file := [], written := 0, tail := [] } chunks with
  | StreamResult.sizeErr _ w lim =>
    { finalFile := none, tempFile := none, returned := w
      err := some (IngestErr.sizeLimit lim) }
  | StreamResult.ok f w =>
    if w = 0 then
      { finalFile := none, tempFile := none, returned := 0
        err := some IngestErr.emptyMessage }
    else
      { finalFile := some f, tempFile := none, returned := w, err := none }

lemma beginsWith_iff (t h : List Nat) : beginsWith t h = true ↔ ∃ r, h = t ++ r := by
  induction t generalizing h with
  | nil => simp [beginsWith]
  | cons a as ih =>
    cases h with
    | nil =>
      simp [beginsWith]
    | cons b bs =>
      simp only [beginsWith, Bool.and_eq_true, beq_iff_eq, ih, List.cons_append,
        List.cons.injEq]
      constructor
      · rintro ⟨hab, r, hr⟩; exact ⟨r, hab.symm, hr⟩
      · rintro ⟨r, hba, hr⟩; exact ⟨hba.symm, r, hr⟩

lemma beginsWith_length_le {t h : List Nat} (hb : beginsWith t h = true) :
    t.length ≤ h.length := by
  obtain ⟨r, rfl⟩ := (beginsWith_iff t h).mp hb
  simp

lemma beginsWith_extend {t xs : List Nat} (ys : List Nat)
    (hb : beginsWith t xs = true) : beginsWith t (xs ++ ys) = true := by
  obtain ⟨r, rfl⟩ := (beginsWith_iff t xs).mp hb
  exact (beginsWith_iff _ _).mpr ⟨r ++ ys, by simp⟩

lemma beginsWith_append_left {t xs : List Nat} (ys : List Nat)
    (hlen : t.length ≤ xs.length) :
    beginsWith t (xs ++ ys) = beginsWith t xs := by
  cases hb : beginsWith t xs with
  | true => rw [beginsWith_extend ys hb]
  | false =>
    cases hq : beginsWith t (xs ++ ys) with
    | false => rfl
    | true =>
      exfalso
      obtain ⟨r, hr⟩ := (beginsWith_iff t (xs ++ ys)).mp hq
      have htake : xs.take t.length = t := by
        have h1 : (xs ++ ys).take t.length = t := by
          rw [hr]
          rw [List.take_append_of_le_length (by simp)]
          simp
        rw [List.take_append_of_le_length hlen] at h1
        exact h1
      have : beginsWith t xs = true := by
        refine (beginsWith_iff t xs).mpr ⟨xs.drop t.length, ?_⟩
        conv_lhs => rw [← List.take_append_drop t.length xs]
        rw [htake]
      rw [this] at hb
      cases hb

lemma bytesIndex_cons (t : List Nat) (b : Nat) (bs : List Nat) :
    bytesIndex t (b :: bs) =
      if beginsWith t (b :: bs) = true then some 0
      else (bytesIndex t bs).map (fun j => j + 1) := rfl

lemma bytesIndex_some_begins {t h : List Nat} {i : Nat}
    (hb : bytesIndex t h = some i) : beginsWith t (h.drop i) = true := by
  induction h generalizing i with
  | nil =>
    unfold bytesIndex at hb
    split at hb
    · next hc =>
      have : i = 0 := by injection hb with h2; omega
      subst this
      exact hc
    · cases hb
  | cons b bs ih =>
    unfold bytesIndex at hb
    split at hb
    · next hc =>
      have : i = 0 := by injection hb with h2; omega
      subst this
      exact hc
    · next hc =>
      cases hbi : bytesIndex t bs with
      | none => rw [hbi] at hb; simp at hb
      | some j =>
        rw [hbi] at hb
        simp only [Option.map_some'] at hb
        have : i = j + 1 := by injection hb with h2; omega
        subst this
        simpa using ih hbi

lemma bytesIndex_some_min {t h : List Nat} {i : Nat}
    (hb : bytesIndex t h = some i) :
    ∀ j, j < i → beginsWith t (h.drop j) = false := by
  induction h generalizing i with
  | nil =>
    unfold bytesIndex at hb
    split at hb
    · next hc =>
      have : i = 0 := by injection hb with h2; omega
      subst this
      intro j hj; omega
    · cases hb
  | cons b bs ih =>
    unfold bytesIndex at hb
    split at hb
    · next hc =>
      have : i = 0 := by injection hb with h2; omega
      subst this
      intro j hj; omega
    · next hc =>
      cases hbi : bytesIndex t bs with
      | none => rw [hbi] at hb; simp at hb
      | some j2 =>
        rw [hbi] at hb
        simp only [Option.map_some'] at hb
        have : i = j2 + 1 := by injection hb with h2; omega
        subst this
        intro j hj
        cases j with
        | zero => exact Bool.eq_false_iff.mpr hc
        | succ j3 => simpa using ih hbi j3 (by omega)

lemma bytesIndex_none_begins {t h : List Nat}
    (hb : bytesIndex t h = none) : ∀ j, beginsWith t (h.drop j) = false := by
  induction h with
  | nil =>
    unfold bytesIndex at hb
    split at hb
    · cases hb
    · next hc =>
      intro j
      simpa [List.drop_nil] using hc
  | cons b bs ih =>
    unfold bytesIndex at hb
    split at hb
    · cases hb
    · next hc =>
      have hbs : bytesIndex t bs = none := by
        cases hbi : bytesIndex t bs with
        | none => rfl
        | some j => rw [hbi] at hb; simp at hb
      intro j
      cases j with
      | zero => exact Bool.eq_false_iff.mpr hc
      | succ j2 => simpa using ih hbs j2

lemma bytesIndex_intro {t h : List Nat} {i : Nat}
    (hb : beginsWith t (h.drop i) = true)
    (hmin : ∀ j, j < i → beginsWith t (h.drop j) = false) :
    bytesIndex t h = some i := by
  induction h generalizing i with
  | nil =>
    have hi : i = 0 := by
      by_contra h0
      have h1 := hmin 0 (by omega)
      simp only [List.drop_nil] at h1 hb
      rw [h1] at hb
      cases hb
    subst hi
    unfold bytesIndex
    rw [if_pos (by simpa using hb)]
  | cons b bs ih =>
    cases i with
    | zero =>
      unfold bytesIndex
      rw [if_pos (by simpa using hb)]
    | succ i2 =>
      have h0 : beginsWith t (b :: bs) = false := by simpa using hmin 0 (by omega)
      unfold bytesIndex
      rw [if_neg (by simp [h0])]
      rw [ih (by simpa using hb) (fun j hj => by simpa using hmin (j + 1) (by omega))]
      rfl

lemma bytesIndex_le_length {t h : List Nat} {i : Nat}
    (hb : bytesIndex t h = some i) : i ≤ h.length := by
  induction h generalizing i with
  | nil =>
    unfold bytesIndex at hb
    split at hb
    · injection hb with h2; omega
    · cases hb
  | cons b bs ih =>
    unfold bytesIndex at hb
    split at hb
    · injection hb with h2; omega
    · cases hbi : bytesIndex t bs with
      | none => rw [hbi] at hb; simp at hb
      | some j =>
        rw [hbi] at hb
        simp only [Option.map_some'] at hb
        have := ih hbi
        injection hb with h2
        simp only [List.length_cons]
        omega

lemma bytesIndex_some_le {t h : List Nat} {i : Nat}
    (hb : bytesIndex t h = some i) : i + t.length ≤ h.length := by
  have h1 := bytesIndex_le_length hb
  have h2 := beginsWith_length_le (bytesIndex_some_begins hb)
  rw [List.length_drop] at h2
  omega

lemma bytesIndex_shift {t : List Nat} (xs ys : List Nat)
    (hhead : ∀ j, j < xs.length → beginsWith t ((xs ++ ys).drop j) = false) :
    bytesIndex t (xs ++ ys) = (bytesIndex t ys).map (fun j => j + xs.length) := by
  induction xs with
  | nil =>
    simp only [List.nil_append, List.length_nil]
    cases hy : bytesIndex t ys with
    | none => rfl
    | some j => simp
  | cons x xs2 ih =>
    have h0 : beginsWith t (x :: (xs2 ++ ys)) = false := by
      simpa using hhead 0 (by simp)
    show bytesIndex t (x :: (xs2 ++ ys)) = _
    rw [bytesIndex_cons]
    rw [if_neg (by simp [h0])]
    have harg : ∀ j, j < xs2.length → beginsWith t ((xs2 ++ ys).drop j) = false := by
      intro j hj
      have := hhead (j + 1) (by simp only [List.length_cons]; omega)
      simpa using this
    rw [ih harg]
    cases hy : bytesIndex t ys with
    | none => rfl
    | some j =>
      simp only [Option.map_some', List.length_cons]
      have harith : j + xs2.length + 1 = j + (xs2.length + 1) := by omega
      rw [harith]

lemma bytesIndex_extend {t xs : List Nat} (ys : List Nat) {k : Nat}
    (hx : bytesIndex t xs = some k) : bytesIndex t (xs ++ ys) = some k := by
  apply bytesIndex_intro
  · have hk := bytesIndex_some_begins hx
    have hkle := bytesIndex_le_length hx
    rw [List.drop_append_of_le_length hkle]
    exact beginsWith_extend _ hk
  · intro j hj
    have hmin := bytesIndex_some_min hx j hj
    have hkl := bytesIndex_some_le hx
    have hjle : j ≤ xs.length := by omega
    rw [List.drop_append_of_le_length hjle]
    have hc : t.length ≤ (xs.drop j).length := by
      rw [List.length_drop]; omega
    rw [beginsWith_append_left ys hc]
    exact hmin

lemma no_begins_head (t file tl d : List Nat)
    (h4 : ∀ j, beginsWith t ((file ++ tl).drop j) = false)
    (hlen : tl.length = min (file.length + tl.length) t.length) :
    ∀ j, j < file.length → beginsWith t ((file ++ (tl ++ d)).drop j) = false := by
  intro j hj
  by_cases hc : j + t.length ≤ file.length + tl.length
  · have hj2 : j ≤ (file ++ tl).length := by
      rw [List.length_append]; omega
    have hd : (file ++ (tl ++ d)).drop j = ((file ++ tl).drop j) ++ d := by
      rw [← List.append_assoc]
      exact List.drop_append_of_le_length hj2
    rw [hd]
    have hlen2 : t.length ≤ ((file ++ tl).drop j).length := by
      rw [List.length_drop, List.length_append]; omega
    rw [beginsWith_append_left d hlen2]
    exact h4 j
  · exfalso; omega

lemma no_begins_append (t file tl c : List Nat)
    (h4 : ∀ j, beginsWith t ((file ++ tl).drop j) = false)
    (hlen : tl.length = min (file.length + tl.length) t.length)
    (hloc : bytesIndex t (tl ++ c) = none) :
    ∀ j, beginsWith t ((file ++ (tl ++ c)).drop j) = false := by
  intro j
  by_cases hj : j < file.length
  · exact no_begins_head t file tl c h4 hlen j hj
  · have hd : (file ++ (tl ++ c)).drop j = (tl ++ c).drop (j - file.length) := by
      have hrw : j = file.length + (j - file.length) := by omega
      conv_lhs => rw [hrw]
      rw [List.drop_append]
    rw [hd]
    exact bytesIndex_none_begins hloc _

lemma bytesIndex_found_step (t file tl c rest : List Nat) {i : Nat}
    (h4 : ∀ j, beginsWith t ((file ++ tl).drop j) = false)
    (hlen : tl.length = min (file.length + tl.length) t.length)
    (hi : bytesIndex t (tl ++ c) = some i) :
    bytesIndex t ((file ++ tl) ++ (c ++ rest)) = some (i + file.length) := by
  have hassoc : (file ++ tl) ++ (c ++ rest) = file ++ ((tl ++ c) ++ rest) := by
    simp [List.append_assoc]
  rw [hassoc]
  have hhead : ∀ j, j < file.length →
      beginsWith t ((file ++ ((tl ++ c) ++ rest)).drop j) = false := by
    intro j hj
    have := no_begins_head t file tl (c ++ rest) h4 hlen j hj
    simpa [List.append_assoc] using this
  rw [bytesIndex_shift file ((tl ++ c) ++ rest) hhead]
  rw [bytesIndex_extend rest hi]
  rfl

/-- Loop invariant of `streamSMTPData` while no terminator has been seen and
no error has occurred, over the prefix `p` of the input consumed so far: the
flushed bytes plus the rolling tail are exactly `p`, the `totalWritten`
counter matches the flushed bytes, the tail holds the last
`min |p| |terminator|` bytes, and the terminator occurs nowhere in `p`. -/
def Inv (st : StreamState) (p : List Nat) : Prop :=
  st.file ++ st.tail = p ∧
  st.written = st.file.length ∧
  st.tail.length = min p.length terminator.length ∧
  ∀ j, beginsWith terminator (p.drop j) = false

lemma Inv_init : Inv { file := [], written := 0, tail := [] } [] := by
  refine ⟨rfl, rfl, by simp, ?_⟩
  intro j
  simp only [List.drop_nil]
  rfl

lemma streamSMTPData_cons (maxSize : Nat) (st : StreamState) (c : List Nat)
    (cs : List (List Nat)) :
    streamSMTPData maxSize st (c :: cs) =
      match processChunk maxSize st c with
      | ChunkOut.done f w => StreamResult.ok f w
      | ChunkOut.sizeErr st2 => StreamResult.sizeErr st2.file st2.written maxSize
      | ChunkOut.cont st2 => streamSMTPData maxSize st2 cs := rfl

lemma processChunk_none_cont (maxSize : Nat) (st : StreamState) (c p : List Nat)
    (hInv : Inv st p) (hc0 : ¬ c.length = 0)
    (hbi : bytesIndex terminator (st.tail ++ c) = none)
    (hchk : ¬ (0 < maxSize ∧ maxSize < (p ++ c).length - terminator.length)) :
    ∃ st2, processChunk maxSize st c = ChunkOut.cont st2 ∧ Inv st2 (p ++ c) := by
  obtain ⟨hpt, hw, htl, h4⟩ := hInv
  have hplen : p.length = st.file.length + st.tail.length := by
    rw [← hpt, List.length_append]
  have hlenmin : st.tail.length =
      min (st.file.length + st.tail.length) terminator.length := by
    rw [← hplen]; exact htl
  have h4f : ∀ j, beginsWith terminator ((st.file ++ st.tail).drop j) = false := by
    intro j; rw [hpt]; exact h4 j
  have hnb : ∀ j, beginsWith terminator ((p ++ c).drop j) = false := by
    intro j
    have := no_begins_append terminator st.file st.tail c h4f hlenmin hbi j
    rw [← List.append_assoc, hpt] at this
    exact this
  have hsbc : (p ++ c).length = st.file.length + (st.tail ++ c).length := by
    rw [List.length_append, hplen, List.length_append]
    omega
  have hX : (st.tail ++ c).length = st.tail.length + c.length := by
    rw [List.length_append]
  have hPC : (p ++ c).length = p.length + c.length := by
    rw [List.length_append]
  by_cases hflush : terminator.length < (st.tail ++ c).length
  · have hflush2 : terminator.length < st.tail.length + c.length := by omega
    have hsznot : ¬ (0 < maxSize ∧ maxSize <
        st.written +
          ((st.tail ++ c).take ((st.tail ++ c).length - terminator.length)).length) := by
      rw [List.length_take]
      omega
    have hsznot2 : ¬ (0 < maxSize ∧ maxSize <
        st.written + (st.tail.length + c.length - terminator.length)) := by
      omega
    refine ⟨⟨st.file ++
        (st.tail ++ c).take ((st.tail ++ c).length - terminator.length),
      st.written +
        ((st.tail ++ c).take ((st.tail ++ c).length - terminator.length)).length,
      (st.tail ++ c).drop ((st.tail ++ c).length - terminator.length)⟩,
      ?_, ?_, ?_, ?_, hnb⟩
    · simp [processChunk, hc0, hbi, hflush, hflush2, hsznot, hsznot2]
    · show st.file ++
          (st.tail ++ c).take ((st.tail ++ c).length - terminator.length) ++
          (st.tail ++ c).drop ((st.tail ++ c).length - terminator.length) = p ++ c
      rw [List.append_assoc, List.take_append_drop, ← List.append_assoc, hpt]
    · show st.written +
          ((st.tail ++ c).take ((st.tail ++ c).length - terminator.length)).length =
        (st.file ++
          (st.tail ++ c).take ((st.tail ++ c).length - terminator.length)).length
      simp only [List.length_append, List.length_take]
      omega
    · show ((st.tail ++ c).drop ((st.tail ++ c).length - terminator.length)).length =
        min (p ++ c).length terminator.length
      simp only [List.length_drop]
      omega
  · have hflushN : ¬ terminator.length < st.tail.length + c.length := by omega
    refine ⟨{ st with tail := st.tail ++ c }, ?_, ?_, hw, ?_, hnb⟩
    · simp [processChunk, hc0, hbi, hflush, hflushN]
    · show st.file ++ (st.tail ++ c) = p ++ c
      rw [← List.append_assoc, hpt]
    · show (st.tail ++ c).length = min (p ++ c).length terminator.length
      omega

lemma no_term_consumed (st : StreamState) (c p : List Nat) (hInv : Inv st p)
    (hbi : bytesIndex terminator (st.tail ++ c) = none) :
    ∀ j, beginsWith terminator ((p ++ c).drop j) = false := by
  obtain ⟨hpt, hw, htl, h4⟩ := hInv
  have hplen : p.length = st.file.length + st.tail.length := by
    rw [← hpt, List.length_append]
  have hlenmin : st.tail.length =
      min (st.file.length + st.tail.length) terminator.length := by
    rw [← hplen]; exact htl
  have h4f : ∀ j, beginsWith terminator ((st.file ++ st.tail).drop j) = false := by
    intro j; rw [hpt]; exact h4 j
  intro j
  have := no_begins_append terminator st.file st.tail c h4f hlenmin hbi j
  rw [← List.append_assoc, hpt] at this
  exact this

lemma bytesIndex_append_lower (t xs rest : List Nat) (gi : Nat)
    (hnb : ∀ j, beginsWith t (xs.drop j) = false)
    (hgi : bytesIndex t (xs ++ rest) = some gi) :
    xs.length < gi + t.length := by
  by_contra hcon
  push_neg at hcon
  have hglobal := bytesIndex_some_begins hgi
  have hgile : gi ≤ xs.length := by omega
  rw [List.drop_append_of_le_length hgile] at hglobal
  rw [beginsWith_append_left _ (by rw [List.length_drop]; omega)] at hglobal
  rw [hnb gi] at hglobal
  cases hglobal

lemma stream_found (maxSize : Nat) :
    ∀ (chunks : List (List Nat)) (st : StreamState) (p : List Nat) (gi : Nat),
    Inv st p →
    bytesIndex terminator (p ++ chunks.flatten) = some gi →
    (maxSize = 0 ∨ gi + 2 ≤ maxSize) →
    streamSMTPData maxSize st chunks =
      StreamResult.ok ((p ++ chunks.flatten).take gi ++ [CR, LF]) (gi + 2) := by
  intro chunks
  induction chunks with
  | nil =>
    intro st p gi hInv hgi hsz
    exfalso
    have hb := bytesIndex_some_begins (show bytesIndex terminator p = some gi by
      simpa using hgi)
    rw [hInv.2.2.2 gi] at hb
    cases hb
  | cons c cs ih =>
    intro st p gi hInv hgi hsz
    obtain ⟨hpt, hw, htl, h4⟩ := hInv
    have hplen : p.length = st.file.length + st.tail.length := by
      rw [← hpt, List.length_append]
    have hlenmin : st.tail.length =
        min (st.file.length + st.tail.length) terminator.length := by
      rw [← hplen]; exact htl
    have h4f : ∀ j, beginsWith terminator ((st.file ++ st.tail).drop j) = false := by
      intro j; rw [hpt]; exact h4 j
    have hflat : (c :: cs).flatten = c ++ cs.flatten := by simp
    have ht5 : terminator.length = 5 := rfl
    by_cases hc0 : c.length = 0
    · have hc : c = [] := List.length_eq_zero.mp hc0
      subst hc
      have hpc : processChunk maxSize st [] = ChunkOut.cont st := by
        simp [processChunk]
      have hres := ih st p gi ⟨hpt, hw, htl, h4⟩ (by simpa using hgi) hsz
      simp only [streamSMTPData_cons, hpc]
      simpa using hres
    · cases hbi : bytesIndex terminator (st.tail ++ c) with
      | some i =>
        have hfs := bytesIndex_found_step terminator st.file st.tail c cs.flatten
          h4f hlenmin hbi
        have hgieq : gi = i + st.file.length := by
          have hre : p ++ (c :: cs).flatten =
              (st.file ++ st.tail) ++ (c ++ cs.flatten) := by
            rw [hpt, hflat]
          rw [hre, hfs] at hgi
          exact (Option.some.inj hgi).symm
        have hile := bytesIndex_some_le hbi
        have hmdlen : ((st.tail ++ c).take i).length = i := by
          rw [List.length_take]
          omega
        have hX : (st.tail ++ c).length = st.tail.length + c.length := by
          rw [List.length_append]
        have hmdlen2 : ((st.tail ++ c).take i).length =
            min i (st.tail.length + c.length) := by
          rw [List.length_take, hX]
        have hsznot : ¬ (0 < maxSize ∧ maxSize <
            st.written + ((st.tail ++ c).take i).length + 2) := by
          rw [hmdlen, hw]
          rcases hsz with h | h
          · omega
          · omega
        have hsznot2 : ¬ (0 < maxSize ∧ maxSize <
            st.written + min i (st.tail.length + c.length) + 2) := by
          rw [← hmdlen2, hmdlen, hw]
          rcases hsz with h | h
          · omega
          · omega
        have hpc : processChunk maxSize st c =
            ChunkOut.done (st.file ++ ((st.tail ++ c).take i ++ [CR, LF]))
              (st.written + ((st.tail ++ c).take i).length + 2) := by
          simp [processChunk, hc0, hbi, hsznot, hsznot2]
        simp only [streamSMTPData_cons, hpc]
        have hfile : (p ++ (c :: cs).flatten).take gi =
            st.file ++ (st.tail ++ c).take i := by
          rw [hflat]
          rw [show p ++ (c ++ cs.flatten) =
              st.file ++ ((st.tail ++ c) ++ cs.flatten) from by
            rw [← hpt]; simp [List.append_assoc]]
          rw [hgieq, show i + st.file.length = st.file.length + i from by omega]
          rw [List.take_append]
          congr 1
          exact List.take_append_of_le_length (by omega)
        have hwr : st.written + ((st.tail ++ c).take i).length + 2 = gi + 2 := by
          rw [hmdlen, hw]; omega
        rw [hwr, hfile, List.append_assoc]
      | none =>
        have hnb := no_term_consumed st c p ⟨hpt, hw, htl, h4⟩ hbi
        have hgi2 : bytesIndex terminator ((p ++ c) ++ cs.flatten) = some gi := by
          have hh := hgi
          rw [hflat] at hh
          rw [List.append_assoc]
          exact hh
        have hbound := bytesIndex_append_lower terminator (p ++ c) cs.flatten gi
          hnb hgi2
        have hchk : ¬ (0 < maxSize ∧ maxSize <
            (p ++ c).length - terminator.length) := by
          rcases hsz with h | h
          · omega
          · omega
        obtain ⟨st2, hpc, hInv2⟩ := processChunk_none_cont maxSize st c p
          ⟨hpt, hw, htl, h4⟩ hc0 hbi hchk
        have hres := ih st2 (p ++ c) gi hInv2 hgi2 hsz
        simp only [streamSMTPData_cons, hpc]
        rw [hres]
        rw [show (p ++ c) ++ cs.flatten = p ++ (c :: cs).flatten from by
          rw [hflat, List.append_assoc]]

lemma stream_none :
    ∀ (chunks : List (List Nat)) (st : StreamState) (p : List Nat),
    Inv st p →
    bytesIndex terminator (p ++ chunks.flatten) = none →
    streamSMTPData 0 st chunks =
      StreamResult.ok
        ((p ++ chunks.flatten).take
          ((p ++ chunks.flatten).length - terminator.length))
        ((p ++ chunks.flatten).length - terminator.length) := by
  intro chunks
  induction chunks with
  | nil =>
    intro st p hInv hnone
    obtain ⟨hpt, hw, htl, h4⟩ := hInv
    have hplen : p.length = st.file.length + st.tail.length := by
      rw [← hpt, List.length_append]
    have hfl : st.file.length = p.length - terminator.length := by omega
    have hfile : st.file = p.take (p.length - terminator.length) := by
      rw [← hfl, ← hpt]
      exact (List.take_left _ _).symm
    have hq : p ++ ([] : List (List Nat)).flatten = p := by simp
    show StreamResult.ok st.file st.written = _
    rw [hq, ← hfile, hw, hfl]
  | cons c cs ih =>
    intro st p hInv hnone
    have hflat : (c :: cs).flatten = c ++ cs.flatten := by simp
    by_cases hc0 : c.length = 0
    · have hc : c = [] := List.length_eq_zero.mp hc0
      subst hc
      have hpc : processChunk 0 st [] = ChunkOut.cont st := by
        simp [processChunk]
      have hres := ih st p hInv (by simpa using hnone)
      simp only [streamSMTPData_cons, hpc]
      simpa using hres
    · cases hbi : bytesIndex terminator (st.tail ++ c) with
      | some i =>
        exfalso
        obtain ⟨hpt, hw, htl, h4⟩ := hInv
        have hplen : p.length = st.file.length + st.tail.length := by
          rw [← hpt, List.length_append]
        have hlenmin : st.tail.length =
            min (st.file.length + st.tail.length) terminator.length := by
          rw [← hplen]; exact htl
        have h4f : ∀ j, beginsWith terminator ((st.file ++ st.tail).drop j) = false := by
          intro j; rw [hpt]; exact h4 j
        have hfs := bytesIndex_found_step terminator st.file st.tail c cs.flatten
          h4f hlenmin hbi
        have hre : p ++ (c :: cs).flatten =
            (st.file ++ st.tail) ++ (c ++ cs.flatten) := by
          rw [hpt, hflat]
        rw [hre, hfs] at hnone
        cases hnone
      | none =>
        obtain ⟨st2, hpc, hInv2⟩ := processChunk_none_cont 0 st c p hInv hc0 hbi
          (by omega)
        have hnone2 : bytesIndex terminator ((p ++ c) ++ cs.flatten) = none := by
          have hh := hnone
          rw [hflat] at hh
          rw [List.append_assoc]
          exact hh
        have hres := ih st2 (p ++ c) hInv2 hnone2
        simp only [streamSMTPData_cons, hpc]
        rw [hres]
        rw [show (p ++ c) ++ cs.flatten = p ++ (c :: cs).flatten from by
          rw [hflat, List.append_assoc]]

lemma stream_sizeErr (maxSize : Nat) :
    ∀ (chunks : List (List Nat)) (st : StreamState) (p : List Nat) (gi : Nat),
    Inv st p →
    bytesIndex terminator (p ++ chunks.flatten) = some gi →
    0 < maxSize → maxSize < gi + 2 →
    ∃ f w, streamSMTPData maxSize st chunks = StreamResult.sizeErr f w maxSize := by
  intro chunks
  induction chunks with
  | nil =>
    intro st p gi hInv hgi _ _
    exfalso
    have hb := bytesIndex_some_begins (show bytesIndex terminator p = some gi by
      simpa using hgi)
    rw [hInv.2.2.2 gi] at hb
    cases hb
  | cons c cs ih =>
    intro st p gi hInv hgi hpos hover
    have hflat : (c :: cs).flatten = c ++ cs.flatten := by simp
    by_cases hc0 : c.length = 0
    · have hc : c = [] := List.length_eq_zero.mp hc0
      subst hc
      have hpc : processChunk maxSize st [] = ChunkOut.cont st := by
        simp [processChunk]
      obtain ⟨f, w, hres⟩ := ih st p gi hInv (by simpa using hgi) hpos hover
      refine ⟨f, w, ?_⟩
      simp only [streamSMTPData_cons, hpc]
      exact hres
    · cases hbi : bytesIndex terminator (st.tail ++ c) with
      | some i =>
        obtain ⟨hpt, hw, htl, h4⟩ := hInv
        have hplen : p.length = st.file.length + st.tail.length := by
          rw [← hpt, List.length_append]
        have hlenmin : st.tail.length =
            min (st.file.length + st.tail.length) terminator.length := by
          rw [← hplen]; exact htl
        have h4f : ∀ j, beginsWith terminator ((st.file ++ st.tail).drop j) = false := by
          intro j; rw [hpt]; exact h4 j
        have hfs := bytesIndex_found_step terminator st.file st.tail c cs.flatten
          h4f hlenmin hbi
        have hgieq : gi = i + st.file.length := by
          have hre : p ++ (c :: cs).flatten =
              (st.file ++ st.tail) ++ (c ++ cs.flatten) := by
            rw [hpt, hflat]
          rw [hre, hfs] at hgi
          exact (Option.some.inj hgi).symm
        have hile := bytesIndex_some_le hbi
        have ht5 : terminator.length = 5 := rfl
        have hmdlen : ((st.tail ++ c).take i).length = i := by
          rw [List.length_take]
          omega
        have hX : (st.tail ++ c).length = st.tail.length + c.length := by
          rw [List.length_append]
        have hszyes : 0 < maxSize ∧ maxSize <
            st.written + ((st.tail ++ c).take i).length + 2 := by
          rw [hmdlen, hw]
          omega
        have hszyes2 : 0 < maxSize ∧ maxSize <
            st.written + min i (st.tail.length + c.length) + 2 := by
          have hmin : min i (st.tail.length + c.length) = i := by omega
          rw [hmin, hw]
          omega
        have hpc : processChunk maxSize st c = ChunkOut.sizeErr st := by
          simp [processChunk, hc0, hbi, hszyes, hszyes2]
        refine ⟨st.file, st.written, ?_⟩
        simp only [streamSMTPData_cons, hpc]
      | none =>
        by_cases hchk : 0 < maxSize ∧ maxSize <
            (p ++ c).length - terminator.length
        · obtain ⟨hpt, hw, htl, h4⟩ := hInv
          have hplen : p.length = st.file.length + st.tail.length := by
            rw [← hpt, List.length_append]
          have hX : (st.tail ++ c).length = st.tail.length + c.length := by
            rw [List.length_append]
          have hPC : (p ++ c).length = p.length + c.length := by
            rw [List.length_append]
          have ht5 : terminator.length = 5 := rfl
          have hflush2 : terminator.length < st.tail.length + c.length := by
            omega
          have hszyes2 : 0 < maxSize ∧ maxSize <
              st.written + (st.tail.length + c.length - terminator.length) := by
            constructor
            · exact hchk.1
            · have := hchk.2
              omega
          have hpc : processChunk maxSize st c = ChunkOut.sizeErr st := by
            simp [processChunk, hc0, hbi, hflush2, hszyes2]
          refine ⟨st.file, st.written, ?_⟩
          simp only [streamSMTPData_cons, hpc]
        · obtain ⟨st2, hpc, hInv2⟩ := processChunk_none_cont maxSize st c p hInv
            hc0 hbi hchk
          have hgi2 : bytesIndex terminator ((p ++ c) ++ cs.flatten) = some gi := by
            have hh := hgi
            rw [hflat] at hh
            rw [List.append_assoc]
            exact hh
          obtain ⟨f, w, hres⟩ := ih st2 (p ++ c) gi hInv2 hgi2 hpos hover
          refine ⟨f, w, ?_⟩
          simp only [streamSMTPData_cons, hpc]
          exact hres

/-- C3: for every input stream containing the terminator and every partition
of it into read chunks, the ingestor persists exactly the bytes preceding the
first terminator followed by one CRLF, returns exactly the number of bytes in
the final file, and the outcome depends only on the concatenation of the
chunks — in particular it is the same for any partition of the same bytes,
including one that splits the terminator between `\r\n` and `.\r\n`. -/
theorem ingest_exact_body_and_count (chunks chunks2 : List (List Nat)) (gi : Nat)
    (hgi : bytesIndex terminator chunks.flatten = some gi) :
    StreamEmailContent 0 chunks =
      { finalFile := some (chunks.flatten.take gi ++ [CR, LF])
        tempFile := none
        returned := gi + 2
        err := none } ∧
    (chunks.flatten.take gi ++ [CR, LF]).length = gi + 2 ∧
    (chunks2.flatten = chunks.flatten →
      StreamEmailContent 0 chunks2 = StreamEmailContent 0 chunks) := by
  have main : ∀ (cs : List (List Nat)), bytesIndex terminator cs.flatten = some gi →
      StreamEmailContent 0 cs =
        { finalFile := some (cs.flatten.take gi ++ [CR, LF])
          tempFile := none
          returned := gi + 2
          err := none } := by
    intro cs hcs
    have hs := stream_found 0 cs { file := [], written := 0, tail := [] } [] gi
      Inv_init (by simpa using hcs) (Or.inl rfl)
    simp only [List.nil_append] at hs
    simp only [StreamEmailContent, hs]
    rw [if_neg (by omega)]
  refine ⟨main chunks hgi, ?_, ?_⟩
  · have hle := bytesIndex_some_le hgi
    simp only [List.length_append, List.length_take, List.length_cons,
      List.length_nil]
    omega
  · intro heq
    rw [main chunks hgi, main chunks2 (by rw [heq]; exact hgi), heq]

/-- Witness for C3: the body `X` followed by the terminator, split so that
the chunk boundary falls between the leading CRLF and the dot-CRLF, persists
as `X\r\n` (3 bytes) with return value 3. -/
theorem ingest_exact_body_and_count_witness :
    StreamEmailContent 0 [[88, 13, 10], [46, 13, 10]] =
      { finalFile := some [88, 13, 10], tempFile := none, returned := 3
        err := none } := by
  have h := (ingest_exact_body_and_count [[88, 13, 10], [46, 13, 10]]
    [[88, 13, 10], [46, 13, 10]] 1 (by decide)).1
  exact h.trans (by decide)

/-- C2: the size limit is enforced exactly at the boundary — a body whose
final size including the appended CRLF equals `max_message_size` is accepted
and persisted at exactly that size, while a body one byte over fails with the
size-limit error and neither a final nor a temp file remains. -/
theorem ingest_size_boundary (chunks : List (List Nat)) (gi maxSize : Nat)
    (hgi : bytesIndex terminator chunks.flatten = some gi) (hpos : 0 < maxSize) :
    (gi + 2 = maxSize →
      StreamEmailContent maxSize chunks =
        { finalFile := some (chunks.flatten.take gi ++ [CR, LF])
          tempFile := none, returned := gi + 2, err := none } ∧
      (chunks.flatten.take gi ++ [CR, LF]).length = maxSize) ∧
    (gi + 2 = maxSize + 1 →
      ∃ w, StreamEmailContent maxSize chunks =
        { finalFile := none, tempFile := none, returned := w
          err := some (IngestErr.sizeLimit maxSize) }) := by
  constructor
  · intro hat
    have hs := stream_found maxSize chunks { file := [], written := 0, tail := [] }
      [] gi Inv_init (by simpa using hgi) (Or.inr (by omega))
    simp only [List.nil_append] at hs
    constructor
    · simp only [StreamEmailContent, hs]
      rw [if_neg (by omega)]
    · have hle := bytesIndex_some_le hgi
      simp only [List.length_append, List.length_take, List.length_cons,
        List.length_nil]
      omega
  · intro hover
    obtain ⟨f, w, hs⟩ := stream_sizeErr maxSize chunks
      { file := [], written := 0, tail := [] } [] gi Inv_init
      (by simpa using hgi) hpos (by omega)
    refine ⟨w, ?_⟩
    simp only [StreamEmailContent, hs]

/-- Witness for C2: body `X\r\n` (3 bytes on disk): accepted at
`max_message_size = 3`, rejected with the size-limit error at 2, leaving no
file. -/
theorem ingest_size_boundary_witness :
    (StreamEmailContent 3 [[88, 13, 10, 46, 13, 10]] =
      { finalFile := some [88, 13, 10], tempFile := none, returned := 3
        err := none }) ∧
    (∃ w, StreamEmailContent 2 [[88, 13, 10, 46, 13, 10]] =
      { finalFile := none, tempFile := none, returned := w
        err := some (IngestErr.sizeLimit 2) }) := by
  constructor
  · have h := ((ingest_size_boundary [[88, 13, 10, 46, 13, 10]] 1 3 (by decide)
      (by decide)).1 (by decide)).1
    exact h.trans (by decide)
  · exact (ingest_size_boundary [[88, 13, 10, 46, 13, 10]] 1 2 (by decide)
      (by decide)).2 (by decide)

/-- C4 counterexample: a two-byte stream reaching EOF with no terminator
makes `StreamEmailContent` return the empty-message error and persist
nothing, contradicting the claim that the ingestor call returns normally in
particular for streams shorter than the terminator. -/
theorem eof_short_stream_counterexample :
    bytesIndex terminator ([[72, 73]] : List (List Nat)).flatten = none ∧
    (StreamEmailContent 0 [[72, 73]]).err = some IngestErr.emptyMessage ∧
    (StreamEmailContent 0 [[72, 73]]).finalFile = none ∧
    (StreamEmailContent 0 [[72, 73]]).tempFile = none := by decide

/-- C4 amended: on EOF before the terminator, the streaming loop itself
always returns without error, carrying the flushed bytes; when more than
`len(terminator)` bytes arrived (so at least one byte was flushed) the
truncated body is persisted and the call returns normally, but when the
stream is no longer than the terminator, zero bytes were written and
`StreamEmailContent` fails with an empty-message error, persisting nothing. -/
theorem eof_truncated_body (chunks : List (List Nat))
    (hnone : bytesIndex terminator chunks.flatten = none) :
    streamSMTPData 0 { file := [], written := 0, tail := [] } chunks =
      StreamResult.ok
        (chunks.flatten.take (chunks.flatten.length - terminator.length))
        (chunks.flatten.length - terminator.length) ∧
    (terminator.length < chunks.flatten.length →
      StreamEmailContent 0 chunks =
        { finalFile := some
            (chunks.flatten.take (chunks.flatten.length - terminator.length))
          tempFile := none
          returned := chunks.flatten.length - terminator.length
          err := none }) ∧
    (chunks.flatten.length ≤ terminator.length →
      StreamEmailContent 0 chunks =
        { finalFile := none, tempFile := none, returned := 0
          err := some IngestErr.emptyMessage }) := by
  have hs := stream_none chunks { file := [], written := 0, tail := [] } []
    Inv_init (by simpa using hnone)
  simp only [List.nil_append] at hs
  refine ⟨hs, ?_, ?_⟩
  · intro hgt
    simp only [StreamEmailContent, hs]
    rw [if_neg (by omega)]
  · intro hle
    simp only [StreamEmailContent, hs]
    rw [if_pos (by omega)]

/-- Witness for the amended C4: a 7-byte terminator-free stream persists its
first 2 bytes; a 2-byte stream yields the empty-message error and no file. -/
theorem eof_truncated_body_witness :
    (StreamEmailContent 0 [[1, 2, 3, 4, 5, 6, 7]] =
      { finalFile := some [1, 2], tempFile := none, returned := 2
        err := none }) ∧
    (StreamEmailContent 0 [[72, 73]] =
      { finalFile := none, tempFile := none, returned := 0
        err := some IngestErr.emptyMessage }) := by
  constructor
  · have h := (eof_truncated_body [[1, 2, 3, 4, 5, 6, 7]] (by decide)).2.1
      (by decide)
    exact h.trans (by decide)
  · exact (eof_truncated_body [[72, 73]] (by decide)).2.2 (by decide)

/-- C10: on EOF with no terminator seen, the bytes held in the rolling tail
window — the last `min 5 |input|` bytes — are never flushed: the written body
and the returned count are the input minus its last 5 bytes, and an input of
at most 5 bytes yields zero bytes written. -/
theorem tail_window_never_flushed (chunks : List (List Nat))
    (hnone : bytesIndex terminator chunks.flatten = none) :
    streamSMTPData 0 { file := [], written := 0, tail := [] } chunks =
      StreamResult.ok (chunks.flatten.take (chunks.flatten.length - 5))
        (chunks.flatten.length - 5) ∧
    (chunks.flatten.length ≤ 5 →
      streamSMTPData 0 { file := [], written := 0, tail := [] } chunks =
        StreamResult.ok [] 0) := by
  have hs := stream_none chunks { file := [], written := 0, tail := [] } []
    Inv_init (by simpa using hnone)
  simp only [List.nil_append] at hs
  have ht5 : terminator.length = 5 := rfl
  rw [ht5] at hs
  refine ⟨hs, ?_⟩
  intro hle
  rw [hs]
  have h0 : chunks.flatten.length - 5 = 0 := by omega
  rw [h0, List.take_zero]

/-- Witness for C10: a 7-byte stream writes 2 bytes; a 2-byte stream writes
nothing. -/
theorem tail_window_never_flushed_witness :
    (streamSMTPData 0 { file := [], written := 0, tail := [] }
        [[1, 2, 3, 4, 5, 6, 7]] = StreamResult.ok [1, 2] 2) ∧
    (streamSMTPData 0 { file := [], written := 0, tail := [] } [[72, 73]] =
      StreamResult.ok [] 0) := by
  constructor
  · have h := (tail_window_never_flushed [[1, 2, 3, 4, 5, 6, 7]] (by decide)).1
    exact h.trans (by decide)
  · exact (tail_window_never_flushed [[72, 73]] (by decide)).2 (by decide)

end Storage

namespace QueuePub

/-- Return value of `Queue.PublishMessage`: `nil`, `ErrQueueFull`, or
`ErrQueueClosed`. -/
inductive PublishResult where
  | ok
  | queueFull
  | queueClosed
deriving DecidableEq

/-- Delay update at the end of a retry iteration (queue.go lines 140-146):
while below `maxDelay` the delay doubles, clamped to `maxDelay`. -/
def nextDelay (d maxDelay : Nat) : Nat :=
  if d < maxDelay then
    if maxDelay < 2 * d then maxDelay else 2 * d
  else d

/-- The sequence of the first `n` retry delays starting from `d` with cap
`maxDelay`, following `nextDelay`. -/
def delaySeq (maxDelay d : Nat) : Nat → List Nat
  | 0 => []
  | n + 1 => d :: delaySeq maxDelay (nextDelay d maxDelay) n

/-- The retry loop of `Queue.PublishMessage` (queue.go lines 120-148),
sequentialised.  `env i` gives, for retry iteration `i`, what the loop
observes after its sleep: whether the publisher context is cancelled and
whether the buffered channel has free space.  `elapsed` models
`time.Since(startTime)` as the sum of sleeps performed so far; `tt` is the
total timeout.  The result carries the list of sleep durations performed.
`fuel` bounds the recursion; `none` means the fuel ran out (the real loop
always terminates because each iteration sleeps a positive duration). -/
def retryLoop (env : Nat → Bool × Bool) (maxDelay tt : Nat) :
    Nat → Nat → Nat → Nat → Option (PublishResult × List Nat)
  | 0, _, _, _ => none
  | fuel + 1, i, elapsed, d =>
    if tt ≤ elapsed then some (PublishResult.queueFull, [])
    else
      let ob := env i
      if ob.2 then some (PublishResult.ok, [d])
      else if ob.1 then some (PublishResult.queueClosed, [d])
      else
        match retryLoop env maxDelay tt fuel (i + 1) (elapsed + d) (nextDelay d maxDelay) with
        | some (r, rest) => some (r, d :: rest)
        | none => none

/-- `Queue.PublishMessage` (queue.go lines 81-149).  `closed0` is whether the
publisher context is already cancelled at entry; `space0` is whether the
non-blocking deposit into the buffered channel succeeds at entry; `env`
describes the retry iterations.  Config durations are in milliseconds; a zero
value falls back to the coded default (100ms / 1s / 5s).  The returned list is
the sequence of sleeps the call performed. -/
def PublishMessage (closed0 space0 : Bool) (env : Nat → Bool × Bool)
    (retryDelay maxRetryDelay publishTimeout : Nat) :
    Option (PublishResult × List Nat) :=
  if closed0 then some (PublishResult.queueClosed, [])
  else if space0 then some (PublishResult.ok, [])
  else if closed0 then some (PublishResult.queueClosed, [])
  else
    let rd := if retryDelay = 0 then 100 else retryDelay
    let md := if maxRetryDelay = 0 then 1000 else maxRetryDelay
    let tt := if publishTimeout = 0 then 5000 else publishTimeout
    retryLoop env md tt (tt + 1) 0 0 rd

/-- Non-blocking deposit availability of a Go buffered channel holding `len`
messages with capacity `size`. -/
def bufferHasSpace (len size : Nat) : Bool := len < size

lemma nextDelay_pos (d maxDelay : Nat) (hd : 1 ≤ d) (hM : 1 ≤ maxDelay) :
    1 ≤ nextDelay d maxDelay := by
  unfold nextDelay
  split
  · split <;> omega
  · omega

lemma retryLoop_full (env : Nat → Bool × Bool) (M tt : Nat)
    (he : ∀ i, env i = (false, false)) (hM : 1 ≤ M) :
    ∀ (fuel elapsed d i : Nat), 1 ≤ d → tt - elapsed < fuel →
    ∃ n, retryLoop env M tt fuel i elapsed d =
        some (PublishResult.queueFull, delaySeq M d n) ∧
      tt ≤ elapsed + (delaySeq M d n).sum ∧
      ∀ m, m < n → elapsed + (delaySeq M d m).sum < tt := by
  intro fuel
  induction fuel with
  | zero => intro elapsed d i _ hfuel; omega
  | succ fuel ih =>
    intro elapsed d i hd hfuel
    by_cases hel : tt ≤ elapsed
    · refine ⟨0, ?_, ?_, ?_⟩
      · simp [retryLoop, hel, delaySeq]
      · simp [delaySeq]; omega
      · intro m hm; omega
    · have henv := he i
      obtain ⟨n, hrun, hsum, hmin⟩ :=
        ih (elapsed + d) (nextDelay d M) (i + 1)
          (nextDelay_pos d M hd hM) (by omega)
      refine ⟨n + 1, ?_, ?_, ?_⟩
      · simp only [retryLoop, hel, if_false, henv, if_neg, delaySeq]
        simp [hrun]
      · simp only [delaySeq, List.sum_cons]
        omega
      · intro m hm
        cases m with
        | zero => simp [delaySeq]; omega
        | succ m2 =>
          have := hmin m2 (by omega)
          simp only [delaySeq, List.sum_cons]
          omega

lemma retryLoop_closed (env : Nat → Bool × Bool) (M tt : Nat) :
    ∀ (i fuel base elapsed d : Nat),
    (∀ j, j < i → env (base + j) = (false, false)) →
    env (base + i) = (true, false) →
    (∀ m, m ≤ i → elapsed + (delaySeq M d m).sum < tt) →
    i < fuel →
    retryLoop env M tt fuel base elapsed d =
      some (PublishResult.queueClosed, delaySeq M d (i + 1)) := by
  intro i
  induction i with
  | zero =>
    intro fuel base elapsed d _ hcl hm hfuel
    cases fuel with
    | zero => omega
    | succ f =>
      have hel : ¬ tt ≤ elapsed := by
        have := hm 0 (by omega)
        simp [delaySeq] at this
        omega
      rw [show base + 0 = base from rfl] at hcl
      simp [retryLoop, hel, hcl, delaySeq]
  | succ i2 ih =>
    intro fuel base elapsed d hj hcl hm hfuel
    cases fuel with
    | zero => omega
    | succ f =>
      have hel : ¬ tt ≤ elapsed := by
        have := hm 0 (by omega)
        simp [delaySeq] at this
        omega
      have h0 : env base = (false, false) := by
        have := hj 0 (by omega)
        simpa using this
      have hrec := ih f (base + 1) (elapsed + d) (nextDelay d M)
        (fun j hjlt => by
          have := hj (j + 1) (by omega)
          have harr : base + (j + 1) = base + 1 + j := by omega
          rw [harr] at this
          exact this)
        (by
          have harr : base + (i2 + 1) = base + 1 + i2 := by omega
          rw [harr] at hcl
          exact hcl)
        (fun m hmle => by
          have := hm (m + 1) (by omega)
          simp only [delaySeq, List.sum_cons] at this
          omega)
        (by omega)
      simp only [retryLoop, hel, if_false, h0, delaySeq]
      simp [hrec, delaySeq]

/-- C1: behaviour of `Queue.PublishMessage`.  With the publisher context
already cancelled it returns `ErrQueueClosed` without sleeping or depositing;
with buffer space it deposits and returns `nil` immediately; with the buffer
full throughout it sleeps the doubling capped delay sequence and returns
`ErrQueueFull` as soon as the accumulated wall time reaches the publish
timeout; if the publisher context is cancelled at some retry iteration while
the buffer is still full, it returns `ErrQueueClosed`; the delay update
doubles and caps at the maximum; and with `buffer_size = 1` and no consumer
a first publish returns `nil` while a second returns `ErrQueueFull`. -/
theorem publishMessage_backpressure (env : Nat → Bool × Bool)
    (retryDelay maxRetryDelay publishTimeout : Nat) (space0 : Bool) :
    (PublishMessage true space0 env retryDelay maxRetryDelay publishTimeout =
      some (PublishResult.queueClosed, [])) ∧
    (PublishMessage false true env retryDelay maxRetryDelay publishTimeout =
      some (PublishResult.ok, [])) ∧
    ((∀ i, env i = (false, false)) →
      ∃ n, PublishMessage false false env retryDelay maxRetryDelay publishTimeout =
          some (PublishResult.queueFull,
            delaySeq (if maxRetryDelay = 0 then 1000 else maxRetryDelay)
              (if retryDelay = 0 then 100 else retryDelay) n) ∧
        (if publishTimeout = 0 then 5000 else publishTimeout) ≤
          (delaySeq (if maxRetryDelay = 0 then 1000 else maxRetryDelay)
            (if retryDelay = 0 then 100 else retryDelay) n).sum ∧
        ∀ m, m < n →
          (delaySeq (if maxRetryDelay = 0 then 1000 else maxRetryDelay)
            (if retryDelay = 0 then 100 else retryDelay) m).sum <
            (if publishTimeout = 0 then 5000 else publishTimeout)) ∧
    (∀ i, (∀ j, j < i → env j = (false, false)) → env i = (true, false) →
      (∀ m, m ≤ i →
        (delaySeq (if maxRetryDelay = 0 then 1000 else maxRetryDelay)
          (if retryDelay = 0 then 100 else retryDelay) m).sum <
          (if publishTimeout = 0 then 5000 else publishTimeout)) →
      PublishMessage false false env retryDelay maxRetryDelay publishTimeout =
        some (PublishResult.queueClosed,
          delaySeq (if maxRetryDelay = 0 then 1000 else maxRetryDelay)
            (if retryDelay = 0 then 100 else retryDelay) (i + 1))) ∧
    (∀ d M, d ≤ M → nextDelay d M = min (2 * d) M) ∧
    (PublishMessage false (bufferHasSpace 0 1) env retryDelay maxRetryDelay
        publishTimeout = some (PublishResult.ok, []) ∧
      ((∀ i, env i = (false, false)) →
        ∃ n, PublishMessage false (bufferHasSpace 1 1) env retryDelay
            maxRetryDelay publishTimeout =
          some (PublishResult.queueFull,
            delaySeq (if maxRetryDelay = 0 then 1000 else maxRetryDelay)
              (if retryDelay = 0 then 100 else retryDelay) n))) := by
  have hrd : 1 ≤ (if retryDelay = 0 then 100 else retryDelay) := by
    split <;> omega
  have hmd : 1 ≤ (if maxRetryDelay = 0 then 1000 else maxRetryDelay) := by
    split <;> omega
  have hfull : (∀ i, env i = (false, false)) →
      ∃ n, PublishMessage false false env retryDelay maxRetryDelay publishTimeout =
          some (PublishResult.queueFull,
            delaySeq (if maxRetryDelay = 0 then 1000 else maxRetryDelay)
              (if retryDelay = 0 then 100 else retryDelay) n) ∧
        (if publishTimeout = 0 then 5000 else publishTimeout) ≤
          (delaySeq (if maxRetryDelay = 0 then 1000 else maxRetryDelay)
            (if retryDelay = 0 then 100 else retryDelay) n).sum ∧
        ∀ m, m < n →
          (delaySeq (if maxRetryDelay = 0 then 1000 else maxRetryDelay)
            (if retryDelay = 0 then 100 else retryDelay) m).sum <
            (if publishTimeout = 0 then 5000 else publishTimeout) := by
    intro he
    obtain ⟨n, hrun, hsum, hmin⟩ :=
      retryLoop_full env (if maxRetryDelay = 0 then 1000 else maxRetryDelay)
        (if publishTimeout = 0 then 5000 else publishTimeout) he hmd
        ((if publishTimeout = 0 then 5000 else publishTimeout) + 1) 0
        (if retryDelay = 0 then 100 else retryDelay) 0 hrd (by omega)
    refine ⟨n, ?_, by simpa using hsum, fun m hm => by simpa using hmin m hm⟩
    simp only [PublishMessage, if_neg, Bool.false_eq_true, if_false]
    exact hrun
  refine ⟨by simp [PublishMessage], by simp [PublishMessage], hfull, ?_, ?_, ?_⟩
  · intro i hj hcl hm
    have hrun := retryLoop_closed env
      (if maxRetryDelay = 0 then 1000 else maxRetryDelay)
      (if publishTimeout = 0 then 5000 else publishTimeout)
      i ((if publishTimeout = 0 then 5000 else publishTimeout) + 1) 0 0
      (if retryDelay = 0 then 100 else retryDelay)
      (fun j hjlt => by simpa using hj j hjlt)
      (by simpa using hcl)
      (fun m hmle => by simpa using hm m hmle)
      ?_
    · simp only [PublishMessage, if_neg, Bool.false_eq_true, if_false]
      exact hrun
    · -- i < tt + 1 because each of the first i delays is positive and their
      -- partial sums stay below tt
      have hlow : ∀ (m d : Nat), 1 ≤ d →
          m ≤ (delaySeq (if maxRetryDelay = 0 then 1000 else maxRetryDelay)
            d m).sum := by
        intro m
        induction m with
        | zero => intro d _; simp [delaySeq]
        | succ m2 ih2 =>
          intro d hd
          have := ih2 (nextDelay d (if maxRetryDelay = 0 then 1000 else maxRetryDelay))
            (nextDelay_pos _ _ hd hmd)
          simp only [delaySeq, List.sum_cons]
          omega
      have := hm i (by omega)
      have := hlow i (if retryDelay = 0 then 100 else retryDelay) hrd
      omega
  · intro d M hdM
    unfold nextDelay
    split
    · split
      · next h1 h2 => omega
      · next h1 h2 => omega
    · next h1 => omega
  · constructor
    · simp [PublishMessage, bufferHasSpace]
    · intro he
      obtain ⟨n, hrun, _, _⟩ := hfull he
      refine ⟨n, ?_⟩
      have hbs : bufferHasSpace 1 1 = false := by decide
      rw [show PublishMessage false (bufferHasSpace 1 1) env retryDelay
            maxRetryDelay publishTimeout =
          PublishMessage false false env retryDelay maxRetryDelay publishTimeout
        from by rw [hbs]]
      exact hrun

/-- Witness for C1: with retry delay 1, max delay 4 and timeout 10 (and a
buffer that stays full), an immediately-closed publish returns QueueClosed
with no sleeps and a full-buffer publish returns QueueFull after sleeping a
delay sequence whose total reaches the timeout. -/
theorem publishMessage_backpressure_witness :
    (PublishMessage true false (fun _ => (false, false)) 1 4 10 =
      some (PublishResult.queueClosed, [])) ∧
    (∃ n, PublishMessage false false (fun _ => (false, false)) 1 4 10 =
        some (PublishResult.queueFull, delaySeq 4 1 n) ∧
      10 ≤ (delaySeq 4 1 n).sum ∧
      ∀ m, m < n → (delaySeq 4 1 m).sum < 10) := by
  have h := publishMessage_backpressure (fun _ => (false, false)) 1 4 10 false
  refine ⟨h.1, ?_⟩
  have hc := h.2.2.1 (fun i => rfl)
  simpa using hc

end QueuePub

namespace Proc

/-- Recipient classes, `delivery.RecipientType`. -/
inductive RecipientType where
  | localR
  | virtualR
  | relayR
  | externalR
deriving DecidableEq

/-- `delivery.DeliveryResult`: per-class lists of recipients that were
delivered and that failed. -/
structure DeliveryResult where
  rtype : RecipientType
  successful : List String
  failed : List String
deriving DecidableEq

/-- `delivery.DeliverWithWorkers`, sequentialised: each recipient is run
through the class delivery function and collected into `Successful` or
`Failed` according to whether it returned an error (the worker pool only
affects arrival order, which the aggregation does not depend on). -/
def DeliverWithWorkers (recipients : List String) (rt : RecipientType)
    (deliver : String → Bool) : DeliveryResult :=
  { rtype := rt
    successful := recipients.filter (fun r => deliver r)
    failed := recipients.filter (fun r => !(deliver r)) }

/-- Spool states, `types.MessageState`. -/
inductive MessageState where
  | incoming
  | processing
  | failed
  | delivered
deriving DecidableEq

/-- The recipient data of a `Message` that `processMessage` consumes. -/
structure MsgRecipients where
  localRecipients : List String
  virtualRecipients : List String
deriving DecidableEq

/-- The per-class delivery results collected by `Queue.processMessage`
(queue.go lines 219-260): one `DeliveryResult` per non-empty class. -/
def processResults (m : MsgRecipients) (deliverLocal deliverVirtual : String → Bool) :
    List DeliveryResult :=
  (if m.localRecipients.length ≠ 0 then
      [DeliverWithWorkers m.localRecipients RecipientType.localR deliverLocal]
    else []) ++
  (if m.virtualRecipients.length ≠ 0 then
      [DeliverWithWorkers m.virtualRecipients RecipientType.virtualR deliverVirtual]
    else [])

/-- The result-aggregation loop of `Queue.processMessage` (queue.go lines
263-278): total count of failed recipients across classes. -/
def totalFailedOf (rs : List DeliveryResult) : Nat :=
  rs.foldl (fun acc r => acc + r.failed.length) 0

/-- `Queue.processMessage` run to completion (queue.go lines 201-300),
returning its sequence of spool moves: `incoming→processing`, then
`processing→delivered` when no recipient failed, else `processing→failed`. -/
def processMessage (m : MsgRecipients) (deliverLocal deliverVirtual : String → Bool) :
    List (MessageState × MessageState) :=
  let results := processResults m deliverLocal deliverVirtual
  let finalState :=
    if totalFailedOf results = 0 then MessageState.delivered else MessageState.failed
  [(MessageState.incoming, MessageState.processing),
   (MessageState.processing, finalState)]

end Proc

namespace Smtp

/-- SMTP session states (session.go `StateConnected` .. `StateClosed`). -/
inductive SessionState where
  | connected
  | greeted
  | authenticated
  | mailFrom
  | rcptTo
  | data
  | closed
deriving DecidableEq

/-- A wire response: status code plus text, as produced by `Response`. -/
structure Resp where
  code : Nat
  text : String
deriving DecidableEq

/-- The four recipient sets of a `types.Message`.  Go stores them as
`map[string]struct{}`; the model keeps insertion-ordered lists to which an
address is only ever added when absent, so list membership is map
membership. -/
structure MsgSets where
  localRecipients : List String
  virtualRecipients : List String
  relayRecipients : List String
  externalRecipients : List String
deriving DecidableEq

/-- `Message.TotalRecipients`. -/
def MsgSets.TotalRecipients (m : MsgSets) : Nat :=
  m.localRecipients.length + m.virtualRecipients.length +
    m.relayRecipients.length + m.externalRecipients.length

/-- Case-insensitive string equality, modelling `strings.EqualFold` as
equality of the character sequences after lower-casing. -/
def eqFold (a b : String) : Bool :=
  a.data.map Char.toLower == b.data.map Char.toLower

/-- `containsDomain` (session.go lines 71-78): case-insensitive membership. -/
def containsDomain (domains : List String) (domain : String) : Bool :=
  domains.any (fun d => eqFold d domain)

/-- `Session.classifyDomain` (session.go lines 81-92). -/
def classifyDomain (localDomains virtualDomains relayDomains : List String)
    (domain : String) : Proc.RecipientType :=
  if containsDomain localDomains domain then Proc.RecipientType.localR
  else if containsDomain virtualDomains domain then Proc.RecipientType.virtualR
  else if containsDomain relayDomains domain then Proc.RecipientType.relayR
  else Proc.RecipientType.externalR

/-- A parsed RCPT TO address as produced by `ParseRcptToCommand`: the full
address and its domain part. -/
structure EmailAddr where
  full : String
  domain : String
deriving DecidableEq

/-- Session slice consumed by `handleRcpt`: the transaction state and the
recipient sets of the current message. -/
structure SessionR where
  state : SessionState
  msg : MsgSets
deriving DecidableEq

/-- `Session.handleRcpt` (session.go lines 379-442) after address parsing.
`userValid` is the outcome of `validateUserWithChain` (the authenticator
collaborator).  Returns the updated session and the response written. -/
def handleRcpt (maxRecipients : Nat)
    (localDomains virtualDomains relayDomains : List String)
    (sess : SessionR) (addr : EmailAddr) (userValid : Bool) : SessionR × Resp :=
  if ¬ (sess.state = SessionState.mailFrom ∨ sess.state = SessionState.rcptTo) then
    (sess, { code := 503, text := "MAIL FROM required before RCPT TO" })
  else if 0 < maxRecipients ∧ maxRecipients ≤ sess.msg.TotalRecipients then
    (sess, { code := 552, text := "Too many recipients" })
  else
    match classifyDomain localDomains virtualDomains relayDomains addr.domain with
    | Proc.RecipientType.localR =>
      if ¬ userValid then
        (sess, { code := 550, text := "User unknown" })
      else if sess.msg.localRecipients.contains addr.full then
        (sess, { code := 250, text := "Recipient accepted" })
      else
        ({ state := SessionState.rcptTo
           msg := { sess.msg with
                    localRecipients := sess.msg.localRecipients ++ [addr.full] } },
         { code := 250, text := "Recipient accepted" })
    | Proc.RecipientType.virtualR =>
      if ¬ userValid then
        (sess, { code := 550, text := "User unknown" })
      else if sess.msg.virtualRecipients.contains addr.full then
        (sess, { code := 250, text := "Recipient accepted" })
      else
        ({ state := SessionState.rcptTo
           msg := { sess.msg with
                    virtualRecipients := sess.msg.virtualRecipients ++ [addr.full] } },
         { code := 250, text := "Recipient accepted" })
    | Proc.RecipientType.relayR =>
      if sess.msg.relayRecipients.contains addr.full then
        (sess, { code := 250, text := "Recipient accepted" })
      else
        ({ state := SessionState.rcptTo
           msg := { sess.msg with
                    relayRecipients := sess.msg.relayRecipients ++ [addr.full] } },
         { code := 250, text := "Recipient accepted" })
    | Proc.RecipientType.externalR =>
      (sess, { code := 554, text := "Relay not permitted" })

/-- The per-class recipient set of a message, used to phrase membership
uniformly over classes. -/
def MsgSets.setOf (m : MsgSets) : Proc.RecipientType → List String
  | Proc.RecipientType.localR => m.localRecipients
  | Proc.RecipientType.virtualR => m.virtualRecipients
  | Proc.RecipientType.relayR => m.relayRecipients
  | Proc.RecipientType.externalR => m.externalRecipients

/-- Session slice consumed by `TCPDataHandler.HandleData`: state,
authentication flag, and the current message (recipient count and size). -/
structure MsgData where
  totalRecipients : Nat
  totalSize : Nat
deriving DecidableEq

/-- Session state for the DATA handler. -/
structure SessionD where
  state : SessionState
  authenticated : Bool
  currentMessage : Option MsgData
deriving DecidableEq

/-- `Session.resetSession` (session.go lines 494-504): keep authentication,
drop back to `Greeted`/`Authenticated`, clear the current message. -/
def resetSession (sess : SessionD) : SessionD :=
  { state := if sess.authenticated then SessionState.authenticated
             else SessionState.greeted
    authenticated := sess.authenticated
    currentMessage := none }

/-- `TCPDataHandler.HandleData` (strategies_tcp.go lines 36-91).  The storage
call is summarised by `ingest` (its returned size or error) and the queue
publish by `pub`; both are produced by collaborators modelled elsewhere in
this file.  Returns the final session and the ordered list of responses
written. -/
def HandleData (sess : SessionD) (ingest : Except Storage.IngestErr Nat)
    (pub : QueuePub.PublishResult) : SessionD × List Resp :=
  if ¬ sess.state = SessionState.rcptTo then
    (sess, [{ code := 503, text := "RCPT TO required before DATA" }])
  else if ((sess.currentMessage.map (fun m => m.totalRecipients)).getD 0) = 0 then
    (sess, [{ code := 503, text := "No recipients specified" }])
  else
    let sess1 : SessionD := { sess with state := SessionState.data }
    let r354 : Resp :=
      { code := 354, text := "Start mail input; end with <CRLF>.<CRLF>" }
    match ingest with
    | Except.error _ =>
      (sess1, [r354, { code := 451, text := "Error storing message" }])
    | Except.ok totalSize =>
      let sess2 : SessionD :=
        { sess1 with
          currentMessage :=
            sess1.currentMessage.map (fun m => { m with totalSize := totalSize }) }
      let _ := pub
      (resetSession sess2,
       [r354, { code := 250, text := "Message accepted for delivery" }])

end Smtp

namespace Smtp

/-- C9 counterexample: with `max_recipients = 1` and one recipient already
accepted, a RCPT TO naming that same address is answered `552 Too many
recipients`, not `250`, because `handleRcpt` checks the recipient limit
before the duplicate check (session.go lines 386-389 precede 411-423). -/
theorem handleRcpt_duplicate_counterexample :
    (({ state := SessionState.rcptTo
        msg := { localRecipients := ["u@example.com"], virtualRecipients := []
                 relayRecipients := [], externalRecipients := [] } } :
        SessionR).msg.localRecipients.contains "u@example.com" = true) ∧
    handleRcpt 1 ["example.com"] [] []
        { state := SessionState.rcptTo
          msg := { localRecipients := ["u@example.com"], virtualRecipients := []
                   relayRecipients := [], externalRecipients := [] } }
        { full := "u@example.com", domain := "example.com" } true =
      ({ state := SessionState.rcptTo
         msg := { localRecipients := ["u@example.com"], virtualRecipients := []
                  relayRecipients := [], externalRecipients := [] } },
       { code := 552, text := "Too many recipients" }) ∧
    (552 : Nat) ≠ 250 := by
  refine ⟨by decide, ?_, by decide⟩
  decide

/-- C9 amended: provided the recipient limit has not yet been reached (no
limit, or strictly fewer recipients than `max_recipients`), a RCPT TO naming
an address already present in the recipient set of its class (and, for a
local or virtual class, passing user validation as the first occurrence did)
is answered `250 Recipient accepted` and leaves the session — in particular
every recipient set — unchanged. -/
theorem handleRcpt_duplicate_idempotent (maxRecipients : Nat)
    (localDomains virtualDomains relayDomains : List String)
    (sess : SessionR) (addr : EmailAddr) (userValid : Bool)
    (hstate : sess.state = SessionState.mailFrom ∨ sess.state = SessionState.rcptTo)
    (hlimit : maxRecipients = 0 ∨ sess.msg.TotalRecipients < maxRecipients)
    (hext : classifyDomain localDomains virtualDomains relayDomains addr.domain ≠
      Proc.RecipientType.externalR)
    (hmem : (sess.msg.setOf
        (classifyDomain localDomains virtualDomains relayDomains addr.domain)).contains
        addr.full = true)
    (hvalid : (classifyDomain localDomains virtualDomains relayDomains addr.domain =
          Proc.RecipientType.localR ∨
        classifyDomain localDomains virtualDomains relayDomains addr.domain =
          Proc.RecipientType.virtualR) → userValid = true) :
    handleRcpt maxRecipients localDomains virtualDomains relayDomains sess addr
        userValid =
      (sess, { code := 250, text := "Recipient accepted" }) := by
  have hnotstate : ¬ ¬ (sess.state = SessionState.mailFrom ∨
      sess.state = SessionState.rcptTo) := not_not_intro hstate
  have hnotlimit : ¬ (0 < maxRecipients ∧ maxRecipients ≤ sess.msg.TotalRecipients) := by
    omega
  unfold handleRcpt
  rw [if_neg (not_not_intro hstate), if_neg hnotlimit]
  cases hcls : classifyDomain localDomains virtualDomains relayDomains addr.domain with
  | localR =>
    have hv : userValid = true := hvalid (Or.inl hcls)
    have hm : sess.msg.localRecipients.contains addr.full = true := by
      have := hmem; rw [hcls] at this; exact this
    have hm2 : addr.full ∈ sess.msg.localRecipients := by simpa using hm
    simp [hv, hm2]
  | virtualR =>
    have hv : userValid = true := hvalid (Or.inr hcls)
    have hm : sess.msg.virtualRecipients.contains addr.full = true := by
      have := hmem; rw [hcls] at this; exact this
    have hm2 : addr.full ∈ sess.msg.virtualRecipients := by simpa using hm
    simp [hv, hm2]
  | relayR =>
    have hm : sess.msg.relayRecipients.contains addr.full = true := by
      have := hmem; rw [hcls] at this; exact this
    have hm2 : addr.full ∈ sess.msg.relayRecipients := by simpa using hm
    simp [hm2]
  | externalR => exact absurd hcls hext

/-- Witness for the amended C9: a duplicate local recipient under no
recipient limit is re-accepted with 250 and the session is unchanged. -/
theorem handleRcpt_duplicate_idempotent_witness :
    handleRcpt 0 ["example.com"] [] []
        { state := SessionState.rcptTo
          msg := { localRecipients := ["u@example.com"], virtualRecipients := []
                   relayRecipients := [], externalRecipients := [] } }
        { full := "u@example.com", domain := "example.com" } true =
      ({ state := SessionState.rcptTo
         msg := { localRecipients := ["u@example.com"], virtualRecipients := []
                  relayRecipients := [], externalRecipients := [] } },
       { code := 250, text := "Recipient accepted" }) := by
  exact handleRcpt_duplicate_idempotent 0 ["example.com"] [] [] _ _ true
    (Or.inr rfl) (Or.inl rfl) (by decide) (by decide) (fun _ => rfl)

end Smtp

namespace Cache

/-- `CacheEntry` (cache.go lines 10-15); timestamps are abstract instants
(`Nat`), with `time.Since(e.timestamp)` at time `now` being `now - timestamp`.
The LRU `list.Element` linkage is represented by position in the cache's
entry list. -/
structure CacheEntry where
  key : String
  value : Bool
  timestamp : Nat
deriving DecidableEq

/-- `LRUCache` (cache.go lines 18-35): the `items` map and the `lruList` are
modelled together as one entry list ordered most-recently-used first. -/
structure LRUCache where
  capacity : Nat
  ttl : Nat
  items : List CacheEntry
deriving DecidableEq

/-- `NewLRUCache`: empty cache with the given capacity and TTL (the cleanup
goroutine is not part of the modelled operations). -/
def NewLRUCache (capacity ttl : Nat) : LRUCache :=
  { capacity := capacity, ttl := ttl, items := [] }

/-- Map lookup `c.items[key]`. -/
def LRUCache.find? (c : LRUCache) (key : String) : Option CacheEntry :=
  c.items.find? (fun e => e.key == key)

/-- `removeLocked` (cache.go lines 119-124): delete the entry (map delete plus
list removal). -/
def LRUCache.removeLocked (c : LRUCache) (key : String) : LRUCache :=
  { c with items := c.items.eraseP (fun e => e.key == key) }

/-- `evictLRU` (cache.go lines 111-116): drop the back of the LRU list, if
any. -/
def LRUCache.evictLRU (c : LRUCache) : LRUCache :=
  { c with items := c.items.dropLast }

/-- `LRUCache.Get` (cache.go lines 56-77) at instant `now`: miss on absence,
expire-and-miss when the age exceeds the TTL, otherwise move to front and
hit.  Returns `((value, found), cache after the call)`. -/
def LRUCache.Get (c : LRUCache) (now : Nat) (key : String) :
    (Bool × Bool) × LRUCache :=
  match c.find? key with
  | none => ((false, false), c)
  | some e =>
    if c.ttl < now - e.timestamp then
      ((false, false), c.removeLocked key)
    else
      ((e.value, true),
       { c with items := e :: c.items.eraseP (fun x => x.key == key) })

/-- `LRUCache.Put` (cache.go lines 80-108) at instant `now`: update-and-move-
to-front when present, otherwise push a fresh entry to the front and evict the
least recently used entry when over capacity. -/
def LRUCache.Put (c : LRUCache) (now : Nat) (key : String) (value : Bool) :
    LRUCache :=
  match c.find? key with
  | some _ =>
    { c with
      items := { key := key, value := value, timestamp := now } ::
        c.items.eraseP (fun e => e.key == key) }
  | none =>
    let c2 : LRUCache :=
      { c with
        items := { key := key, value := value, timestamp := now } :: c.items }
    if c.capacity < c2.items.length then c2.evictLRU else c2

/-- A call against the cache, for stating invariants over arbitrary
histories. -/
inductive CacheOp where
  | put (key : String) (value : Bool) (now : Nat)
  | get (key : String) (now : Nat)
deriving DecidableEq

/-- Apply one call (the cache side of `Get`, or `Put`). -/
def applyOp (c : LRUCache) : CacheOp → LRUCache
  | CacheOp.put k v now => c.Put now k v
  | CacheOp.get k now => (c.Get now k).2

/-- Run a history of calls. -/
def runOps (c : LRUCache) (ops : List CacheOp) : LRUCache :=
  ops.foldl applyOp c

lemma find?_some_length_eraseP {l : List CacheEntry} {p : CacheEntry → Bool}
    {e : CacheEntry} (h : l.find? p = some e) :
    (l.eraseP p).length + 1 = l.length := by
  induction l with
  | nil => simp at h
  | cons a as ih =>
    by_cases hp : p a
    · rw [List.eraseP_cons_of_pos hp]; simp
    · rw [List.eraseP_cons_of_neg hp]
      rw [List.find?_cons_of_neg _ hp] at h
      simp only [List.length_cons]
      have := ih h
      omega

lemma find?_eraseP_none_of_nodup (l : List CacheEntry) (k : String)
    (hnd : (l.map (fun e => e.key)).Nodup) :
    (l.eraseP (fun e => e.key == k)).find? (fun e => e.key == k) = none := by
  induction l with
  | nil => simp
  | cons a as ih =>
    simp only [List.map_cons, List.nodup_cons] at hnd
    rw [List.eraseP_cons]
    by_cases hp : (a.key == k) = true
    · simp only [hp, cond_true]
      rw [List.find?_eq_none]
      intro e he hbe
      have hak : a.key = k := by simpa using hp
      have hek : e.key = k := by simpa using hbe
      exact hnd.1 (by rw [hak, ← hek]; exact List.mem_map_of_mem _ he)
    · have hp2 : (a.key == k) = false := by simpa using hp
      simp only [hp2, cond_false]
      rw [List.find?_cons]
      simp only [hp2]
      exact ih hnd.2

lemma Put_capacity (c : LRUCache) (now : Nat) (k : String) (v : Bool) :
    (c.Put now k v).capacity = c.capacity := by
  unfold LRUCache.Put
  cases hf : c.find? k with
  | some e => rfl
  | none => simp only [LRUCache.evictLRU]; split <;> rfl

lemma Get_capacity (c : LRUCache) (now : Nat) (k : String) :
    ((c.Get now k).2).capacity = c.capacity := by
  unfold LRUCache.Get
  cases hf : c.find? k with
  | none => rfl
  | some e =>
    simp only
    split
    · rfl
    · rfl

lemma Put_length_le (c : LRUCache) (now : Nat) (k : String) (v : Bool)
    (h : c.items.length ≤ c.capacity) :
    (c.Put now k v).items.length ≤ c.capacity := by
  unfold LRUCache.Put
  cases hf : c.find? k with
  | some e =>
    have he := find?_some_length_eraseP hf
    simp only [List.length_cons]
    omega
  | none =>
    simp only [LRUCache.evictLRU]
    split
    · simp only [List.length_dropLast, List.length_cons]
      omega
    · simp only [List.length_cons]
      next h2 => simp only [List.length_cons] at h2; omega

lemma Get_length_le (c : LRUCache) (now : Nat) (k : String)
    (h : c.items.length ≤ c.capacity) :
    ((c.Get now k).2).items.length ≤ c.capacity := by
  unfold LRUCache.Get
  cases hf : c.find? k with
  | none => exact h
  | some e =>
    simp only
    split
    · simp only [LRUCache.removeLocked]
      exact le_trans (List.length_eraseP_le _) h
    · have he := find?_some_length_eraseP (p := fun x => x.key == k) hf
      simp only [List.length_cons]
      omega

lemma applyOp_capacity (c : LRUCache) (op : CacheOp) :
    (applyOp c op).capacity = c.capacity := by
  cases op with
  | put k v now => exact Put_capacity c now k v
  | get k now => exact Get_capacity c now k

lemma applyOp_length_le (c : LRUCache) (op : CacheOp)
    (h : c.items.length ≤ c.capacity) :
    (applyOp c op).items.length ≤ c.capacity := by
  cases op with
  | put k v now => exact Put_length_le c now k v h
  | get k now => exact Get_length_le c now k h

lemma runOps_bounded : ∀ (ops : List CacheOp) (c : LRUCache),
    c.items.length ≤ c.capacity →
    (runOps c ops).items.length ≤ c.capacity ∧
      (runOps c ops).capacity = c.capacity := by
  intro ops
  induction ops with
  | nil => intro c h; exact ⟨h, rfl⟩
  | cons op ops ih =>
    intro c h
    have hcap := applyOp_capacity c op
    have hlen := applyOp_length_le c op h
    have := ih (applyOp c op) (by rw [hcap]; exact hlen)
    simp only [runOps, List.foldl_cons] at *
    exact ⟨by rw [← hcap]; exact this.1, by rw [← hcap]; exact this.2⟩

/-- C7: an `LRUCache.Put` immediately followed by `LRUCache.Get` of the same
key hits and returns the stored value (for a cache that can hold at least one
entry), and a `Get` of an entry whose age exceeds the TTL removes that entry
and reports a miss. -/
theorem cache_put_get_and_ttl :
    (∀ (c : LRUCache) (now : Nat) (k : String) (v : Bool), 1 ≤ c.capacity →
      (((c.Put now k v).Get now k).1 = (v, true))) ∧
    (∀ (c : LRUCache) (now : Nat) (k : String) (e : CacheEntry),
      c.find? k = some e → c.ttl < now - e.timestamp →
      ((c.Get now k).1 = (false, false) ∧
        ((c.items.map (fun x => x.key)).Nodup →
          ((c.Get now k).2.find? k = none)))) := by
  constructor
  · intro c now k v hcap
    have hfront : ∃ rest,
        (c.Put now k v).items =
          { key := k, value := v, timestamp := now } :: rest ∧
        (c.Put now k v).ttl = c.ttl := by
      unfold LRUCache.Put
      cases hf : c.find? k with
      | some e0 => exact ⟨_, rfl, rfl⟩
      | none =>
        simp only [LRUCache.evictLRU]
        split
        · next h2 =>
          cases hi : c.items with
          | nil => exfalso; rw [hi] at h2; simp at h2; omega
          | cons a rest => exact ⟨(a :: rest).dropLast, by simp, rfl⟩
        · exact ⟨_, rfl, rfl⟩
    obtain ⟨rest, hitems, httl⟩ := hfront
    unfold LRUCache.Get LRUCache.find?
    rw [hitems]
    rw [List.find?_cons_of_pos _ (by simp)]
    simp [httl]
  · intro c now k e hf hexp
    have hstep : c.Get now k = ((false, false), c.removeLocked k) := by
      unfold LRUCache.Get
      rw [hf]
      simp [hexp]
    rw [hstep]
    refine ⟨rfl, ?_⟩
    intro hnd
    unfold LRUCache.removeLocked LRUCache.find?
    exact find?_eraseP_none_of_nodup c.items k hnd

/-- Witness for C7: put-then-get hits in a capacity-1 cache, and a get after
the TTL has passed misses and removes the entry. -/
theorem cache_put_get_and_ttl_witness :
    ((((NewLRUCache 1 10).Put 0 "a" true).Get 0 "a").1 = (true, true)) ∧
    ((({ capacity := 1, ttl := 10
         items := [{ key := "a", value := true, timestamp := 0 }] } :
        LRUCache).Get 11 "a").1 = (false, false)) := by
  constructor
  · exact cache_put_get_and_ttl.1 (NewLRUCache 1 10) 0 "a" true (by decide)
  · exact (cache_put_get_and_ttl.2
      { capacity := 1, ttl := 10
        items := [{ key := "a", value := true, timestamp := 0 }] }
      11 "a" { key := "a", value := true, timestamp := 0 }
      (by decide) (by decide)).1

/-- C8: starting from a fresh cache, any history of get/put calls leaves at
most `capacity` stored entries; and a `Put` of a new key into a full cache
evicts exactly the least recently used entry (the back of the LRU list) while
pushing the new entry to the front. -/
theorem cache_capacity_and_lru_eviction :
    (∀ (cap ttl : Nat) (ops : List CacheOp),
      (runOps (NewLRUCache cap ttl) ops).items.length ≤ cap) ∧
    (∀ (c : LRUCache) (now : Nat) (k : String) (v : Bool),
      c.find? k = none → c.items.length = c.capacity → 1 ≤ c.capacity →
      (c.Put now k v).items =
        { key := k, value := v, timestamp := now } :: c.items.dropLast) := by
  constructor
  · intro cap ttl ops
    exact (runOps_bounded ops (NewLRUCache cap ttl) (by simp [NewLRUCache])).1
  · intro c now k v hf hlen hcap
    unfold LRUCache.Put
    rw [hf]
    simp only [LRUCache.evictLRU]
    rw [if_pos (by simp only [List.length_cons]; omega)]
    cases hi : c.items with
    | nil => exfalso; rw [hi] at hlen; simp at hlen; omega
    | cons a rest => simp

/-- Witness for C8: two puts into a capacity-1 cache keep at most one entry,
and a put into a full capacity-1 cache evicts its only (least recently used)
entry. -/
theorem cache_capacity_and_lru_eviction_witness :
    ((runOps (NewLRUCache 1 5)
        [CacheOp.put "a" true 0, CacheOp.put "b" false 1]).items.length ≤ 1) ∧
    ((({ capacity := 1, ttl := 5
         items := [{ key := "a", value := true, timestamp := 0 }] } :
        LRUCache).Put 7 "b" false).items =
      [{ key := "b", value := false, timestamp := 7 }]) := by
  constructor
  · exact cache_capacity_and_lru_eviction.1 1 5
      [CacheOp.put "a" true 0, CacheOp.put "b" false 1]
  · have h := cache_capacity_and_lru_eviction.2
      { capacity := 1, ttl := 5
        items := [{ key := "a", value := true, timestamp := 0 }] }
      7 "b" false (by decide) (by decide) (by decide)
    simpa using h

end Cache

namespace Proc

lemma foldl_add_shift (rs : List DeliveryResult) :
    ∀ n : Nat, rs.foldl (fun acc x => acc + x.failed.length) n =
      n + rs.foldl (fun acc x => acc + x.failed.length) 0 := by
  induction rs with
  | nil => intro n; simp
  | cons a as ih =>
    intro n
    simp only [List.foldl_cons]
    rw [ih (n + a.failed.length), ih (0 + a.failed.length)]
    omega

lemma totalFailedOf_cons (r : DeliveryResult) (rs : List DeliveryResult) :
    totalFailedOf (r :: rs) = r.failed.length + totalFailedOf rs := by
  simp only [totalFailedOf, List.foldl_cons]
  rw [foldl_add_shift rs (0 + r.failed.length)]
  omega

lemma totalFailedOf_eq_zero (rs : List DeliveryResult) :
    totalFailedOf rs = 0 ↔ ∀ r ∈ rs, r.failed = [] := by
  induction rs with
  | nil => simp [totalFailedOf]
  | cons a as ih =>
    rw [totalFailedOf_cons]
    constructor
    · intro h
      intro r hr
      rcases List.mem_cons.mp hr with h1 | h2
      · subst h1; exact List.length_eq_zero.mp (by omega)
      · exact (ih.mp (by omega)) r h2
    · intro h
      have ha : a.failed = [] := h a (List.mem_cons_self a as)
      have has : totalFailedOf as = 0 := ih.mpr (fun r hr => h r (List.mem_cons_of_mem a hr))
      simp [ha, has]

lemma deliverWithWorkers_failed_nil (recipients : List String) (rt : RecipientType)
    (deliver : String → Bool) :
    (DeliverWithWorkers recipients rt deliver).failed = [] ↔
      ∀ r ∈ recipients, deliver r = true := by
  simp only [DeliverWithWorkers]
  rw [List.filter_eq_nil_iff]
  constructor
  · intro h r hr
    have := h r hr
    simpa using this
  · intro h r hr
    simp [h r hr]

/-- C5: `Queue.processMessage` moves the message `incoming→processing` and
then `processing→delivered` exactly when every per-class `DeliveryResult` has
an empty `Failed` list — equivalently, when every per-recipient delivery
succeeded — and `processing→failed` otherwise. -/
theorem processMessage_final_state (m : MsgRecipients)
    (deliverLocal deliverVirtual : String → Bool) :
    (processMessage m deliverLocal deliverVirtual =
        [(MessageState.incoming, MessageState.processing),
         (MessageState.processing, MessageState.delivered)] ↔
      ∀ r ∈ processResults m deliverLocal deliverVirtual, r.failed = []) ∧
    (processMessage m deliverLocal deliverVirtual =
        [(MessageState.incoming, MessageState.processing),
         (MessageState.processing, MessageState.failed)] ↔
      ¬ ∀ r ∈ processResults m deliverLocal deliverVirtual, r.failed = []) ∧
    ((∀ r ∈ processResults m deliverLocal deliverVirtual, r.failed = []) ↔
      ((∀ r ∈ m.localRecipients, deliverLocal r = true) ∧
       (∀ r ∈ m.virtualRecipients, deliverVirtual r = true))) := by
  have hz := totalFailedOf_eq_zero (processResults m deliverLocal deliverVirtual)
  have h3 : (∀ r ∈ processResults m deliverLocal deliverVirtual, r.failed = []) ↔
      ((∀ r ∈ m.localRecipients, deliverLocal r = true) ∧
       (∀ r ∈ m.virtualRecipients, deliverVirtual r = true)) := by
    by_cases hl : m.localRecipients.length = 0 <;>
      by_cases hv : m.virtualRecipients.length = 0
    · have hl' := List.length_eq_zero.mp hl
      have hv' := List.length_eq_zero.mp hv
      simp [processResults, hl', hv']
    · have hl' := List.length_eq_zero.mp hl
      simp [processResults, hl', hv, deliverWithWorkers_failed_nil]
    · have hv' := List.length_eq_zero.mp hv
      simp [processResults, hl, hv', deliverWithWorkers_failed_nil]
    · simp [processResults, hl, hv, deliverWithWorkers_failed_nil]
  by_cases h : totalFailedOf (processResults m deliverLocal deliverVirtual) = 0
  · have hpm : processMessage m deliverLocal deliverVirtual =
        [(MessageState.incoming, MessageState.processing),
         (MessageState.processing, MessageState.delivered)] := by
      simp [processMessage, h]
    refine ⟨?_, ?_, h3⟩
    · rw [hpm]; exact iff_of_true rfl (hz.mp h)
    · rw [hpm]
      exact iff_of_false (fun hEq => by simp at hEq) (fun hcon => hcon (hz.mp h))
  · have hpm : processMessage m deliverLocal deliverVirtual =
        [(MessageState.incoming, MessageState.processing),
         (MessageState.processing, MessageState.failed)] := by
      simp [processMessage, h]
    refine ⟨?_, ?_, h3⟩
    · rw [hpm]
      exact iff_of_false (fun hEq => by simp at hEq) (fun hall => h (hz.mpr hall))
    · rw [hpm]; exact iff_of_true rfl (fun hall => h (hz.mpr hall))

end Proc

namespace Smtp

/-- C6: when DATA body ingestion succeeds, `TCPDataHandler.HandleData`
replies 354 and then `250 Message accepted for delivery` and resets the
transaction (back to Greeted or Authenticated with no current message),
whatever the result of the queue publish — the reply and reset do not depend
on `pub` at all. -/
theorem handleData_publish_immaterial (sess : SessionD) (n : Nat)
    (pub : QueuePub.PublishResult)
    (hstate : sess.state = SessionState.rcptTo)
    (hrcpt : 0 < (sess.currentMessage.map (fun m => m.totalRecipients)).getD 0) :
    HandleData sess (Except.ok n) pub =
      ({ state := if sess.authenticated then SessionState.authenticated
                  else SessionState.greeted
         authenticated := sess.authenticated
         currentMessage := none },
       [{ code := 354, text := "Start mail input; end with <CRLF>.<CRLF>" },
        { code := 250, text := "Message accepted for delivery" }]) := by
  have h0 : ¬ ((sess.currentMessage.map (fun m => m.totalRecipients)).getD 0 = 0) := by
    omega
  simp [HandleData, hstate, h0, resetSession]

/-- Witness for C6 at a concrete session and a failed publish. -/
theorem handleData_publish_immaterial_witness :
    HandleData
        { state := SessionState.rcptTo, authenticated := false
          currentMessage := some { totalRecipients := 1, totalSize := 0 } }
        (Except.ok 3) QueuePub.PublishResult.queueFull =
      ({ state := SessionState.greeted, authenticated := false
         currentMessage := none },
       [{ code := 354, text := "Start mail input; end with <CRLF>.<CRLF>" },
        { code := 250, text := "Message accepted for delivery" }]) := by
  exact handleData_publish_immaterial _ 3 QueuePub.PublishResult.queueFull rfl
    (by decide)

end Smtp
